import Mathlib

/-!
Verification of `parse_cutadapt_adapters.py`: a shallow embedding of the
log-parsing and aggregation routine of the repository, together with proofs
about its behaviour.

Text is modelled as `List Char`.  The two module-level regular expressions of
the source are fixed patterns, so each is embedded as an explicit scanner with
the exact semantics of Python `re` on those patterns (DOTALL, lazy `.*?`,
greedy `\d+`/`\s+` runs, the `(?=...|$)` lookahead where `$` matches at the end
of the string or just before a final newline, and `re.findall` resuming at the
end of every non-empty match).
-/

set_option maxHeartbeats 4000000

set_option maxRecDepth 10000

/-- Least-index scanner: `scanFirst p fuel i` returns the least `j ≥ i` with
`p j = true`, trying at most `fuel` positions.  This is the engine loop of
`re`: try a match at each successive position. -/
def scanFirst (p : Nat → Bool) : Nat → Nat → Option Nat
  | 0, _ => none
  | fuel+1, i => if p i then some i else scanFirst p fuel (i+1)

/-- Least-index scanner for positionwise partial matches, returning the first
successful result. -/
def scanFirstOpt {β : Type} (f : Nat → Option β) : Nat → Nat → Option β
  | 0, _ => none
  | fuel+1, i =>
    match f i with
    | some r => some r
    | none => scanFirstOpt f fuel (i+1)

/-- Python `\s` on ASCII text: space, tab, newline, carriage return, vertical
tab, form feed. -/
def isSpaceChar (c : Char) : Bool :=
  c = ' ' || c = '\t' || c = '\n' || c = '\r' || c = '\x0b' || c = '\x0c'

/-- Character of `s` at index `i`, when present. -/
def charAt? (s : List Char) (i : Nat) : Option Char := (s.drop i).head?

/-- There is a decimal digit at index `i`. -/
def isDigitAt (s : List Char) (i : Nat) : Bool :=
  match charAt? s i with
  | some c => c.isDigit
  | none => false

/-- There is a whitespace character at index `i`. -/
def isSpaceAt (s : List Char) (i : Nat) : Bool :=
  match charAt? s i with
  | some c => isSpaceChar c
  | none => false

/-- The literal `p` occurs in `s` starting at index `i`. -/
def occursAt (p s : List Char) (i : Nat) : Bool := p.isPrefixOf (s.drop i)

/-- The substring `s[i..j)` (clipped to the length of `s`). -/
def sliceOf (s : List Char) (i j : Nat) : List Char := (s.drop i).take (j - i)

/-- The block-delimiter literal of `sample_split_regex`. -/
def cmdLit : List Char := "Command line parameters:".data

/-- The sample-name literal of `sample_name_regex`. -/
def ratLit : List Char := "RAT".data

/-- `RAT\d` matches at index `i` (the token `RAT` immediately followed by a
digit; `\d+` then extends over the maximal digit run). -/
def ratAt (s : List Char) (i : Nat) : Bool :=
  occursAt ratLit s i && isDigitAt s (i + 3)

/-- First match of `RAT\d+` at an index `≥ i` (start index). -/
def findRatTok (s : List Char) (i : Nat) : Option Nat :=
  scanFirst (ratAt s) (s.length + 1) i

/-- First occurrence of the literal `p` at an index `≥ i`. -/
def findOcc (p s : List Char) (i : Nat) : Option Nat :=
  scanFirst (occursAt p s) (s.length + 1) i

/-- End of the maximal digit run starting at `i` (the first non-digit index
`≥ i`).  Models a greedy `\d+` continuation. -/
def digitsEnd (s : List Char) (i : Nat) : Nat :=
  (scanFirst (fun j => !(isDigitAt s j)) (s.length + 1) i).getD s.length

/-- End of the maximal whitespace run starting at `i`.  Models a greedy
`\s+`/`\s*` continuation. -/
def spacesEnd (s : List Char) (i : Nat) : Nat :=
  (scanFirst (fun j => !(isSpaceAt s j)) (s.length + 1) i).getD s.length

/-- Python `$` (without `re.MULTILINE`): end of the string, or just before a
newline that ends the string. -/
def dollarAt (s : List Char) (i : Nat) : Bool :=
  i == s.length || (i + 1 == s.length && charAt? s i == some '\n')

/-- The lookahead `(?=Command line parameters:|$)` of `sample_split_regex`
holds at index `i`. -/
def splitLookAt (s : List Char) (i : Nat) : Bool :=
  occursAt cmdLit s i || dollarAt s i

/-- First index `≥ i` at which the lookahead holds: the end of the lazy `.*?`
trailing part of a sample-block match. -/
def splitLookEnd (s : List Char) (i : Nat) : Nat :=
  (scanFirst (splitLookAt s) (s.length + 1) i).getD s.length

/-- `re.findall(sample_split_regex, ...)` scanning loop, from position `i`.
A match starting at `p` requires the literal at `p`, then lazy `.*?` up to the
first `RAT\d+` token at some `k ≥ p + 24`, the greedy digit run to
`digitsEnd s (k+3)`, and the lazy `.*?` up to the first lookahead position.
If no `RAT\d+` token occurs after the first literal occurrence, no later
position can match either, and scanning ends. -/
def scanSampleBlocks (s : List Char) : Nat → Nat → List (Nat × Nat)
  | 0, _ => []
  | fuel+1, i =>
    match findOcc cmdLit s i with
    | none => []
    | some p =>
      match findRatTok s (p + cmdLit.length) with
      | none => []
      | some k =>
        let e := splitLookEnd s (digitsEnd s (k + 3))
        (p, e) :: scanSampleBlocks s fuel e

/-- The sample blocks of the log text: the list
`re.findall(sample_split_regex, full_log_text, flags=re.DOTALL)`
(each match's group 1 is the whole matched span). -/
def sample_blocks (s : List Char) : List (List Char) :=
  (scanSampleBlocks s (s.length + 1) 0).map (fun pe => sliceOf s pe.1 pe.2)

/-- `sample_name_regex.search(block)`: the first `RAT\d+` token of the block,
with its greedy digit run (`None` when the block has no such token, in which
case the source skips the block). -/
def sample_name (b : List Char) : Option (List Char) :=
  match findRatTok b 0 with
  | none => none
  | some k => some (sliceOf b k (digitsEnd b (k + 3)))

/-- The literal `===` of `adapter_block_regex`. -/
def eqMarker : List Char := "===".data

/-- The literal `First` of the `(First|Second)` alternation. -/
def firstLit : List Char := "First".data

/-- The literal `Second` of the `(First|Second)` alternation. -/
def secondLit : List Char := "Second".data

/-- The literal `read:` of `adapter_block_regex`. -/
def readColon : List Char := "read:".data

/-- The literal `Adapter` of `adapter_block_regex`. -/
def adapterLit : List Char := "Adapter".data

/-- The literal `Sequence:` of `adapter_block_regex`. -/
def seqLit : List Char := "Sequence:".data

/-- The literal `Trimmed:` of `adapter_block_regex`. -/
def trimmedLit : List Char := "Trimmed:".data

/-- The literal `times` of `adapter_block_regex`. -/
def timesLit : List Char := "times".data

/-- Match the literal `lit` at index `i`, yielding the index after it. -/
def litEnd (lit s : List Char) (i : Nat) : Option Nat :=
  if occursAt lit s i then some (i + lit.length) else none

/-- Match `\s+` at index `i`: at least one whitespace character, greedily
extended (each `\s+` of the pattern is followed by a non-whitespace literal
or digit, so backtracking cannot shorten the run). -/
def wsEnd1 (s : List Char) (i : Nat) : Option Nat :=
  let j := spacesEnd s i
  if i < j then some j else none

/-- Match `\d+` at index `i`: at least one digit, greedily extended. -/
def digitsEnd1 (s : List Char) (i : Nat) : Option Nat :=
  let j := digitsEnd s i
  if i < j then some j else none

/-- Match the header part
`===\s+(First|Second)\s+read:\s+Adapter\s+(\d+)\s+===` at index `i`,
yielding the captured alternative (group 1) and the index after the header.
The numeric group 2 is matched but its value is discarded, as in the
source. -/
def headerMatchAt (s : List Char) (i : Nat) : Option (List Char × Nat) :=
  (litEnd eqMarker s i).bind fun j1 =>
  (wsEnd1 s j1).bind fun j2 =>
  (match litEnd firstLit s j2 with
   | some j => some (firstLit, j)
   | none => (litEnd secondLit s j2).map fun j => (secondLit, j)).bind fun wj =>
  (wsEnd1 s wj.2).bind fun j3 =>
  (litEnd readColon s j3).bind fun j4 =>
  (wsEnd1 s j4).bind fun j5 =>
  (litEnd adapterLit s j5).bind fun j6 =>
  (wsEnd1 s j6).bind fun j7 =>
  (digitsEnd1 s j7).bind fun j8 =>
  (wsEnd1 s j8).bind fun j9 =>
  (litEnd eqMarker s j9).map fun j10 => (wj.1, j10)

/-- First index `≥ i` holding `;`. -/
def findSemi (s : List Char) (i : Nat) : Option Nat :=
  scanFirst (fun j => charAt? s j == some ';') (s.length + 1) i

/-- Match `Sequence:\s*([^;]+);` at index `q0`.  `\s*` greedily takes the
whitespace run after the colon and `[^;]+` runs to the first `;`; when the
whole region before the `;` is whitespace, the engine backtracks `\s*` by one
so that `[^;]+` still matches one character.  Yields the index after the `;`
and the raw capture of group 3. -/
def seqPartAt (s : List Char) (q0 : Nat) : Option (Nat × List Char) :=
  match litEnd seqLit s q0 with
  | none => none
  | some q =>
    match findSemi s q with
    | none => none
    | some t =>
      if q < t then
        let w := spacesEnd s q
        if w < t then some (t + 1, sliceOf s w t)
        else some (t + 1, sliceOf s (t - 1) t)
      else none

/-- Decimal value of a digit string, as `int()` computes it. -/
def digitsToNat (ds : List Char) : Nat :=
  ds.foldl (fun n c => 10 * n + (c.toNat - 48)) 0

/-- Match `Trimmed:\s+(\d+)\s+times` at index `u0`, yielding the index after
`times` and the numeric value of group 4. -/
def trimPartAt (s : List Char) (u0 : Nat) : Option (Nat × Nat) :=
  (litEnd trimmedLit s u0).bind fun v1 =>
  (wsEnd1 s v1).bind fun v2 =>
  (digitsEnd1 s v2).bind fun v3 =>
  (wsEnd1 s v3).bind fun v4 =>
  (litEnd timesLit s v4).map fun v5 => (v5, digitsToNat (sliceOf s v2 v3))

/-- One extracted adapter section: group 1 (`First`/`Second`), the raw group 3
capture, and the numeric group 4. -/
structure AdapterMatch where
  which_read : List Char
  adapter_sequence_raw : List Char
  trimmed_count : Nat
deriving DecidableEq

/-- Full match of `adapter_block_regex` at index `i`: the header, then the
lazy `.*?` to the first position where the `Sequence` part matches, then the
lazy `.*?` to the first position where the `Trimmed` part matches.  (If the
first matching `Sequence` part has no `Trimmed` part after it, no later
`Sequence` position can have one either, because their search ranges are
contained in this one; so the whole match fails, faithfully to backtracking.)
Yields the record and the index after the match. -/
def adapterMatchAt (s : List Char) (i : Nat) : Option (AdapterMatch × Nat) :=
  (headerMatchAt s i).bind fun wh =>
  (scanFirstOpt (seqPartAt s) (s.length + 2) wh.2).bind fun sq =>
  (scanFirstOpt (trimPartAt s) (s.length + 2) sq.1).map fun tr =>
  (⟨wh.1, sq.2, tr.2⟩, tr.1)

/-- `re.findall(adapter_block_regex, block)` scanning loop from position `i`:
a match must start at an occurrence of `===`, so scanning jumps between
those; on failure the engine advances one position, on success it resumes at
the end of the match. -/
def adapterScan (s : List Char) : Nat → Nat → List AdapterMatch
  | 0, _ => []
  | fuel+1, i =>
    match findOcc eqMarker s i with
    | none => []
    | some h =>
      match adapterMatchAt s h with
      | some mt => mt.1 :: adapterScan s fuel mt.2
      | none => adapterScan s fuel (h + 1)

/-- All adapter-section matches of a block, in order. -/
def adapter_matches (b : List Char) : List AdapterMatch :=
  adapterScan b (b.length + 2) 0

/-- Python `str.strip()`: remove leading and trailing whitespace. -/
def stripChars (l : List Char) : List Char :=
  ((l.dropWhile isSpaceChar).reverse.dropWhile isSpaceChar).reverse

/-- `which_read.lower() == "first"`. -/
def lowerEqFirst (w : List Char) : Bool :=
  w.map Char.toLower = "first".data

/-- Per-sequence accumulator `{"read1": .., "read2": ..}`. -/
structure Counts where
  read1 : Nat
  read2 : Nat
deriving DecidableEq

/-- Add a trimmed count to the proper side of the accumulator. -/
def bumpCounts (c : Counts) (isFirst : Bool) (n : Nat) : Counts :=
  if isFirst then { c with read1 := c.read1 + n } else { c with read2 := c.read2 + n }

/-- The dictionary update of the source loop body: initialise the entry with
zeros on first sight of a sequence (insertion order preserved, as for a
Python dict) and add the count to `read1` or `read2`. -/
def updData : List (List Char × Counts) → List Char → Bool → Nat →
    List (List Char × Counts)
  | [], seq, isF, n => [(seq, bumpCounts ⟨0, 0⟩ isF n)]
  | (k, v) :: rest, seq, isF, n =>
    if k = seq then (k, bumpCounts v isF n) :: rest
    else (k, v) :: updData rest seq isF n

/-- `adapter_data` after the extraction loop: fold the matches, keying by the
stripped sequence and routing on `which_read.lower() == "first"`. -/
def buildAdapterData (ms : List AdapterMatch) : List (List Char × Counts) :=
  ms.foldl
    (fun d m =>
      updData d (stripChars m.adapter_sequence_raw) (lowerEqFirst m.which_read)
        m.trimmed_count)
    []

/-- `adapter_data[seq]` (every looked-up key is present at emission time). -/
def dlookup (d : List (List Char × Counts)) (seq : List Char) : Counts :=
  match d.find? (fun kv => kv.1 = seq) with
  | some kv => kv.2
  | none => ⟨0, 0⟩

/-- Python string `<=`: lexicographic comparison by code point. -/
def lexLe : List Char → List Char → Bool
  | [], _ => true
  | _ :: _, [] => false
  | a :: as, b :: bs =>
    if a < b then true
    else if b < a then false
    else lexLe as bs

/-- Python string `<`: strict lexicographic comparison by code point. -/
def lexLt : List Char → List Char → Bool
  | _, [] => false
  | [], _ :: _ => true
  | a :: as, b :: bs =>
    if a < b then true
    else if b < a then false
    else lexLt as bs

/-- Insert into a `lexLe`-sorted list. -/
def insortSeq (x : List Char) : List (List Char) → List (List Char)
  | [] => [x]
  | y :: ys => if lexLe x y then x :: y :: ys else y :: insortSeq x ys

/-- `sorted(adapter_data.keys())`: the ascending lexicographic ordering of
the keys (insertion sort; any comparison sort of a list of distinct keys
under a total order yields this same list). -/
def sortSeqs : List (List Char) → List (List Char)
  | [] => []
  | x :: xs => insortSeq x (sortSeqs xs)

/-- One output row, with the five columns
`Sample Name`, `Adapter Sequence`, `Trimmed (Read 1)`, `Trimmed (Read 2)`,
`Total Trimmed`. -/
structure Row where
  sample : List Char
  adapter : List Char
  read1 : Nat
  read2 : Nat
  total : Nat
deriving DecidableEq

/-- The literal `TOTAL` of the synthetic per-sample total row. -/
def totalLit : List Char := "TOTAL".data

/-- The emission loop over the sorted sequences: append one row per sequence
and accumulate `total_read1` / `total_read2`. -/
def emitLoop (name : List Char) (d : List (List Char × Counts)) :
    List (List Char) → List Row × Nat × Nat → List Row × Nat × Nat
  | [], acc => acc
  | seq :: rest, acc =>
    let c := dlookup d seq
    emitLoop name d rest
      (acc.1 ++ [⟨name, seq, c.read1, c.read2, c.read1 + c.read2⟩],
       acc.2.1 + c.read1, acc.2.2 + c.read2)

/-- The rows contributed by one sample block: nothing when the sample-name
search fails (the source's `continue`); otherwise the per-sequence rows in
sorted order followed by the `TOTAL` row when at least one sequence was
found. -/
def blockRows (b : List Char) : List Row :=
  match sample_name b with
  | none => []
  | some name =>
    let d := buildAdapterData (adapter_matches b)
    let keys := sortSeqs (d.map Prod.fst)
    let res := emitLoop name d keys ([], 0, 0)
    match keys with
    | [] => res.1
    | _ :: _ =>
      res.1 ++ [⟨name, totalLit, res.2.1, res.2.2, res.2.1 + res.2.2⟩]

/-- `parse_cutadapt_adapters`: the rows of the returned data frame, in
order. -/
def parse_cutadapt_adapters (s : List Char) : List Row :=
  (sample_blocks s).foldl (fun acc b => acc ++ blockRows b) []

/-- Decimal digits of `n`, most significant first (as `str(int)`). -/
def natDigitsAux : Nat → Nat → List Char
  | 0, _ => []
  | fuel+1, n =>
    if n < 10 then [Char.ofNat (48 + n)]
    else natDigitsAux fuel (n / 10) ++ [Char.ofNat (48 + n % 10)]

/-- Decimal rendering of a natural number. -/
def natChars (n : Nat) : List Char := natDigitsAux (n + 1) n

/-- CSV minimal quoting: a field is quoted when it contains the delimiter,
the quote character, or a line-break character. -/
def needsQuote (f : List Char) : Bool :=
  f.any (fun c => c = ',' || c = '"' || c = '\n' || c = '\r')

/-- Double every quote character of a quoted field. -/
def escapeQuotes : List Char → List Char
  | [] => []
  | c :: rest =>
    if c = '"' then '"' :: '"' :: escapeQuotes rest else c :: escapeQuotes rest

/-- Render one CSV field with minimal quoting. -/
def csvField (f : List Char) : List Char :=
  if needsQuote f then '"' :: (escapeQuotes f ++ ['"']) else f

/-- The header line written for a non-empty frame: the five column names in
order (none needs quoting). -/
def csvHeaderLine : List Char :=
  "Sample Name,Adapter Sequence,Trimmed (Read 1),Trimmed (Read 2),Total Trimmed\n".data

/-- One CSV data line for a row. -/
def csvRowLine (r : Row) : List Char :=
  csvField r.sample ++ [','] ++ csvField r.adapter ++ [','] ++
    natChars r.read1 ++ [','] ++ natChars r.read2 ++ [','] ++
    natChars r.total ++ ['\n']

/-- `pd.DataFrame(rows).to_csv(index=False)`.  A frame built from a non-empty
list of row dicts has the five columns in key order, and `to_csv` writes the
header line and one line per row, each terminated by a newline.  A frame
built from an empty list has no columns at all, and `to_csv(index=False)`
then writes just the empty header line, i.e. the single character `\n`. -/
def dfToCsv (rows : List Row) : List Char :=
  match rows with
  | [] => ['\n']
  | _ :: _ => csvHeaderLine ++ (rows.map csvRowLine).flatten

/-- What `main` prints to standard output for a given log text:
`print(df.to_csv(index=False))` appends one more newline. -/
def programStdout (log : List Char) : List Char :=
  dfToCsv (parse_cutadapt_adapters log) ++ ['\n']

/-- The exit status of `main` when a readable log file argument is supplied
(the only failure exits are the missing-argument usage error and an unhandled
file exception, both outside the parsing core): always success. -/
def programExitCode (_log : List Char) : Nat := 0

/-- Scenario-1 log: one `RAT10` block with one First-read and one Second-read
adapter section, both with sequence `AAAA`. -/
def c1log : List Char :=
  ("Command line parameters: RAT10_R1.fq\n" ++
   "=== First read: Adapter 1 ===\n" ++
   "Sequence: AAAA; T\n" ++
   "Trimmed: 100 times\n" ++
   "=== Second read: Adapter 1 ===\n" ++
   "Sequence: AAAA; T\n" ++
   "Trimmed: 50 times\n").data

/-- The single block of `c1log` (the match stops just before the final
newline, which `$` allows). -/
def c1block : List Char := c1log.dropLast

/-- A log whose only `Command line parameters:` line does not contain the
sample token on that line: the token sits on the following line. -/
def c2log : List Char := "Command line parameters: foo\nRAT7 x".data

/-- A self-contained one-block log. -/
def c5A : List Char := "Command line parameters: x RAT1 y".data

/-- A second self-contained one-block log, with one adapter section. -/
def c5B : List Char :=
  ("Command line parameters: z RAT2\n" ++
   "=== First read: Adapter 1 ===\n" ++
   "Sequence: GG; x\n" ++
   "Trimmed: 3 times").data

/-- A block with an adapter-section header and a `Trimmed:` line but no
`Sequence:` field anywhere. -/
def c8block : List Char :=
  "=== First read: Adapter 1 ===\nTrimmed: 5 times".data

/-- A log whose adapter section has the literal sequence `TOTAL`. -/
def c10log : List Char :=
  ("Command line parameters: sample RAT5 run\n" ++
   "=== First read: Adapter 1 ===\n" ++
   "Sequence: TOTAL; Type: regular\n" ++
   "Trimmed: 7 times").data

/-- Split a text into its lines (separator `\n`, not kept). -/
def splitLinesAux : List Char → List Char → List (List Char)
  | [], cur => [cur.reverse]
  | c :: rest, cur =>
    if c = '\n' then cur.reverse :: splitLinesAux rest []
    else splitLinesAux rest (c :: cur)

/-- The lines of a text. -/
def splitLines (l : List Char) : List (List Char) := splitLinesAux l []

/-- The block contains a full adapter-section header match somewhere. -/
def hasHeaderB (b : List Char) : Bool :=
  (scanFirstOpt (headerMatchAt b) (b.length + 2) 0).isSome

/-- The block contains a full `Trimmed: <digits> times` match somewhere. -/
def hasTrimmedB (b : List Char) : Bool :=
  (scanFirstOpt (trimPartAt b) (b.length + 2) 0).isSome

/-- `adapter_data` of a block. -/
def block_data (b : List Char) : List (List Char × Counts) :=
  buildAdapterData (adapter_matches b)

/-- `sorted_sequences` of a block. -/
def block_keys (b : List Char) : List (List Char) :=
  sortSeqs ((block_data b).map Prod.fst)

/-- The per-adapter row emitted for one sequence. -/
def mkAdapterRow (name : List Char) (d : List (List Char × Counts))
    (seq : List Char) : Row :=
  ⟨name, seq, (dlookup d seq).read1, (dlookup d seq).read2,
    (dlookup d seq).read1 + (dlookup d seq).read2⟩

/-- `total_read1` of a block after the emission loop. -/
def blockTotal1 (b : List Char) : Nat :=
  ((block_keys b).map (fun q => (dlookup (block_data b) q).read1)).sum

/-- `total_read2` of a block after the emission loop. -/
def blockTotal2 (b : List Char) : Nat :=
  ((block_keys b).map (fun q => (dlookup (block_data b) q).read2)).sum

/-- The per-adapter rows of a block, in sorted key order. -/
def perAdapterRows (b : List Char) : List Row :=
  match sample_name b with
  | none => []
  | some name => (block_keys b).map (mkAdapterRow name (block_data b))

/-- The `TOTAL` row of a block: present exactly when a sequence was found. -/
def totalRows (b : List Char) : List Row :=
  match sample_name b with
  | none => []
  | some name =>
    match block_keys b with
    | [] => []
    | _ :: _ =>
      [⟨name, totalLit, blockTotal1 b, blockTotal2 b,
        blockTotal1 b + blockTotal2 b⟩]

/-- Strict lexicographic order on the `Adapter Sequence` column. -/
def rowLtRel (r q : Row) : Prop := lexLt r.adapter q.adapter = true

/-- Non-strict lexicographic order as a relation. -/
def seqLeRel (a b : List Char) : Prop := lexLe a b = true

/-- Strict lexicographic order as a relation. -/
def seqLtRel (a b : List Char) : Prop := lexLt a b = true

theorem scanFirst_eq_some {p : Nat → Bool} {fuel i k : Nat}
    (h : scanFirst p fuel i = some k) :
    i ≤ k ∧ p k = true ∧ ∀ j, i ≤ j → j < k → p j = false := by
  induction fuel generalizing i with
  | zero => simp [scanFirst] at h
  | succ fuel ih =>
    rw [scanFirst] at h
    by_cases hp : p i = true
    · simp [hp] at h
      subst h
      exact ⟨Nat.le_refl _, hp, fun j h1 h2 => absurd h1 (Nat.not_le_of_lt h2)⟩
    · simp [hp] at h
      obtain ⟨h1, h2, h3⟩ := ih h
      refine ⟨Nat.le_trans (Nat.le_succ i) h1, h2, fun j hj1 hj2 => ?_⟩
      rcases Nat.eq_or_lt_of_le hj1 with rfl | hj
      · exact Bool.eq_false_iff.mpr hp
      · exact h3 j hj hj2

theorem scanFirst_intro {p : Nat → Bool} {fuel i k : Nat}
    (h1 : p k = true) (h2 : i ≤ k) (h3 : k < i + fuel)
    (h4 : ∀ j, i ≤ j → j < k → p j = false) :
    scanFirst p fuel i = some k := by
  induction fuel generalizing i with
  | zero => omega
  | succ fuel ih =>
    rw [scanFirst]
    rcases Nat.eq_or_lt_of_le h2 with rfl | hik
    · simp [h1]
    · have hpi : p i = false := h4 i (Nat.le_refl _) hik
      simp [hpi]
      exact ih (by omega) (by omega) (fun j hj1 hj2 => h4 j (by omega) hj2)

theorem scanFirst_eq_none {p : Nat → Bool} {fuel i : Nat}
    (h : scanFirst p fuel i = none) :
    ∀ j, i ≤ j → j < i + fuel → p j = false := by
  induction fuel generalizing i with
  | zero => omega
  | succ fuel ih =>
    rw [scanFirst] at h
    by_cases hp : p i = true
    · simp [hp] at h
    · simp [hp] at h
      intro j hj1 hj2
      rcases Nat.eq_or_lt_of_le hj1 with rfl | hj
      · exact Bool.eq_false_iff.mpr hp
      · exact ih h j hj (by omega)

theorem scanFirst_none_intro {p : Nat → Bool} {fuel i : Nat}
    (h : ∀ j, i ≤ j → p j = false) :
    scanFirst p fuel i = none := by
  induction fuel generalizing i with
  | zero => rfl
  | succ fuel ih =>
    rw [scanFirst]
    simp [h i (Nat.le_refl _)]
    exact ih (fun j hj => h j (by omega))

theorem scanFirst_isSome {p : Nat → Bool} {fuel i k : Nat}
    (h1 : p k = true) (h2 : i ≤ k) (h3 : k < i + fuel) :
    (scanFirst p fuel i).isSome = true := by
  cases hs : scanFirst p fuel i with
  | some m => rfl
  | none => exact absurd (scanFirst_eq_none hs k h2 h3) (by simp [h1])

theorem scanFirstOpt_none_intro {β : Type} {f : Nat → Option β} {fuel i : Nat}
    (h : ∀ j, i ≤ j → f j = none) :
    scanFirstOpt f fuel i = none := by
  induction fuel generalizing i with
  | zero => rfl
  | succ fuel ih =>
    rw [scanFirstOpt]
    rw [h i (Nat.le_refl _)]
    exact ih (fun j hj => h j (by omega))

theorem isPrefixOf_iff_ex {p l : List Char} :
    p.isPrefixOf l = true ↔ ∃ t, p ++ t = l := by
  induction p generalizing l with
  | nil => simp [List.isPrefixOf]
  | cons a as ih =>
    cases l with
    | nil => simp [List.isPrefixOf]
    | cons b bs =>
      simp only [List.isPrefixOf, Bool.and_eq_true, beq_iff_eq, ih,
        List.cons_append, List.cons.injEq]
      constructor
      · rintro ⟨rfl, t, rfl⟩
        exact ⟨t, rfl, rfl⟩
      · rintro ⟨t, rfl, rfl⟩
        exact ⟨rfl, t, rfl⟩

theorem drop_append_le {A B : List Char} {i : Nat} (h : i ≤ A.length) :
    (A ++ B).drop i = A.drop i ++ B := by
  induction A generalizing i with
  | nil =>
    have : i = 0 := by simpa using h
    simp [this]
  | cons a as ih =>
    cases i with
    | zero => simp
    | succ i => simpa using ih (by simpa using h)

theorem drop_append_add {A B : List Char} {j : Nat} :
    (A ++ B).drop (A.length + j) = B.drop j := by
  have h1 : (A ++ B).drop (A.length + j) = ((A ++ B).drop A.length).drop j := by
    rw [List.drop_drop]
  rw [h1, drop_append_le (Nat.le_refl _), List.drop_length, List.nil_append]

theorem take_append_le {A B : List Char} {i : Nat} (h : i ≤ A.length) :
    (A ++ B).take i = A.take i := by
  induction A generalizing i with
  | nil =>
    have : i = 0 := by simpa using h
    simp [this]
  | cons a as ih =>
    cases i with
    | zero => simp
    | succ i => simpa using ih (by simpa using h)

theorem take_append_ge {p t : List Char} {k : Nat} (h : p.length ≤ k) :
    (p ++ t).take k = p ++ t.take (k - p.length) := by
  induction p generalizing k with
  | nil => simp
  | cons a as ih =>
    cases k with
    | zero => simp at h
    | succ k => simpa using ih (by simpa using h)

theorem head?_append_left {A B : List Char} (h : A ≠ []) :
    (A ++ B).head? = A.head? := by
  cases A with
  | nil => exact absurd rfl h
  | cons a as => rfl

theorem charAt?_append_left {A B : List Char} {i : Nat} (h : i < A.length) :
    charAt? (A ++ B) i = charAt? A i := by
  unfold charAt?
  rw [drop_append_le (Nat.le_of_lt h)]
  refine head?_append_left ?_
  intro hnil
  have := congrArg List.length hnil
  simp at this
  omega

theorem charAt?_append_add {A B : List Char} {j : Nat} :
    charAt? (A ++ B) (A.length + j) = charAt? B j := by
  unfold charAt?
  rw [drop_append_add]

theorem charAt?_none_of_ge {s : List Char} {i : Nat} (h : s.length ≤ i) :
    charAt? s i = none := by
  unfold charAt?
  rw [List.drop_eq_nil_of_le h]
  rfl

theorem charAt?_drop {s : List Char} {p j : Nat} :
    charAt? (s.drop p) j = charAt? s (p + j) := by
  unfold charAt?
  rw [List.drop_drop]

theorem charAt?_take {s : List Char} {k i : Nat} (h : i < k) :
    charAt? (s.take k) i = charAt? s i := by
  unfold charAt?
  rw [List.drop_take]
  cases hd : s.drop i with
  | nil => simp
  | cons c rest =>
    have hk : k - i = (k - i - 1) + 1 := by omega
    rw [hk]
    simp

theorem occursAt_le_length {p s : List Char} {i : Nat}
    (hp : p ≠ []) (h : occursAt p s i = true) : i + p.length ≤ s.length := by
  obtain ⟨t, ht⟩ := isPrefixOf_iff_ex.mp h
  have hlen := congrArg List.length ht
  simp [List.length_drop] at hlen
  by_cases hi : i ≤ s.length
  · omega
  · rw [List.drop_eq_nil_of_le (by omega)] at ht
    have := congrArg List.length ht
    simp at this
    exact absurd this.1 hp

theorem occursAt_false_of_ge {p s : List Char} {i : Nat}
    (hp : p ≠ []) (h : s.length ≤ i) : occursAt p s i = false := by
  cases hocc : occursAt p s i with
  | false => rfl
  | true =>
    have := occursAt_le_length hp hocc
    cases p with
    | nil => exact absurd rfl hp
    | cons a as => simp at this; omega

theorem occursAt_append_left {p A B : List Char} {i : Nat}
    (h : i + p.length ≤ A.length) :
    occursAt p (A ++ B) i = occursAt p A i := by
  rw [Bool.eq_iff_iff]
  unfold occursAt
  rw [isPrefixOf_iff_ex, isPrefixOf_iff_ex]
  rw [drop_append_le (by omega)]
  constructor
  · rintro ⟨t, ht⟩
    have hlen : p.length ≤ (A.drop i).length := by
      simp [List.length_drop]; omega
    have h1 : p = (A.drop i).take p.length := by
      have h2 := congrArg (List.take p.length) ht
      rw [take_append_ge (Nat.le_refl _)] at h2
      rw [take_append_le hlen] at h2
      simpa using h2
    refine ⟨(A.drop i).drop p.length, ?_⟩
    nth_rewrite 1 [h1]
    exact List.take_append_drop _ _
  · rintro ⟨t, ht⟩
    exact ⟨t ++ B, by rw [← List.append_assoc, ht]⟩

theorem occursAt_append_add {p A B : List Char} {j : Nat} :
    occursAt p (A ++ B) (A.length + j) = occursAt p B j := by
  unfold occursAt
  rw [drop_append_add]

theorem isDigitAt_append_left {A B : List Char} {i : Nat} (h : i < A.length) :
    isDigitAt (A ++ B) i = isDigitAt A i := by
  unfold isDigitAt
  rw [charAt?_append_left h]

theorem isDigitAt_append_add {A B : List Char} {j : Nat} :
    isDigitAt (A ++ B) (A.length + j) = isDigitAt B j := by
  unfold isDigitAt
  rw [charAt?_append_add]

theorem isDigitAt_false_of_ge {s : List Char} {i : Nat} (h : s.length ≤ i) :
    isDigitAt s i = false := by
  unfold isDigitAt
  rw [charAt?_none_of_ge h]

theorem isDigitAt_lt_length {s : List Char} {i : Nat}
    (h : isDigitAt s i = true) : i < s.length := by
  by_contra hc
  rw [isDigitAt_false_of_ge (by omega)] at h
  exact Bool.false_ne_true h

theorem isPrefixOf_take {p l : List Char} {k : Nat}
    (h : p.isPrefixOf l = true) (hk : p.length ≤ k) :
    p.isPrefixOf (l.take k) = true := by
  obtain ⟨t, ht⟩ := isPrefixOf_iff_ex.mp h
  refine isPrefixOf_iff_ex.mpr ⟨t.take (k - p.length), ?_⟩
  rw [← ht, take_append_ge hk]

theorem drop_slice {s : List Char} {i j d : Nat} :
    (sliceOf s i j).drop d = (s.drop (i + d)).take (j - i - d) := by
  unfold sliceOf
  rw [List.drop_take, List.drop_drop]

theorem occursAt_slice {q s : List Char} {i j k : Nat}
    (h : occursAt q s k = true) (h1 : i ≤ k) (h2 : k + q.length ≤ j) :
    occursAt q (sliceOf s i j) (k - i) = true := by
  unfold occursAt
  rw [drop_slice]
  have hik : i + (k - i) = k := by omega
  rw [hik]
  exact isPrefixOf_take h (by omega)

theorem charAt?_slice {s : List Char} {i j k : Nat}
    (h1 : i ≤ k) (h2 : k < j) :
    charAt? (sliceOf s i j) (k - i) = charAt? s k := by
  unfold sliceOf
  rw [charAt?_take (by omega), charAt?_drop]
  congr 1
  omega

theorem isDigitAt_slice {s : List Char} {i j k : Nat}
    (h1 : i ≤ k) (h2 : k < j) :
    isDigitAt (sliceOf s i j) (k - i) = isDigitAt s k := by
  unfold isDigitAt
  rw [charAt?_slice h1 h2]

theorem length_slice {s : List Char} {i j : Nat} (h : j ≤ s.length) :
    (sliceOf s i j).length = j - i := by
  unfold sliceOf
  simp [List.length_take, List.length_drop]
  omega

theorem cmdLit_length : cmdLit.length = 24 := rfl

theorem cmdLit_ne_nil : cmdLit ≠ [] := by decide

theorem digitsEnd_scan_some (s : List Char) (i : Nat) :
    ∃ m, scanFirst (fun j => !(isDigitAt s j)) (s.length + 1) i = some m := by
  cases hs : scanFirst (fun j => !(isDigitAt s j)) (s.length + 1) i with
  | some m => exact ⟨m, rfl⟩
  | none =>
    have h := scanFirst_eq_none hs (max i s.length) (Nat.le_max_left _ _) (by omega)
    have h2 : isDigitAt s (max i s.length) = false :=
      isDigitAt_false_of_ge (Nat.le_max_right _ _)
    simp [h2] at h

theorem digitsEnd_facts (s : List Char) (i : Nat) :
    i ≤ digitsEnd s i ∧ isDigitAt s (digitsEnd s i) = false ∧
      ∀ j, i ≤ j → j < digitsEnd s i → isDigitAt s j = true := by
  obtain ⟨m, hm⟩ := digitsEnd_scan_some s i
  obtain ⟨h1, h2, h3⟩ := scanFirst_eq_some hm
  unfold digitsEnd
  rw [hm]
  refine ⟨h1, by simpa using h2, fun j hj1 hj2 => ?_⟩
  have := h3 j hj1 hj2
  simpa using this

theorem digitsEnd_le {s : List Char} {i : Nat} (h : i ≤ s.length) :
    digitsEnd s i ≤ s.length := by
  by_contra hc
  obtain ⟨_, _, h3⟩ := digitsEnd_facts s i
  have := h3 s.length h (by omega)
  rw [isDigitAt_false_of_ge (Nat.le_refl _)] at this
  exact Bool.false_ne_true this

theorem splitLook_scan_some {s : List Char} {i : Nat} (h : i ≤ s.length) :
    ∃ e, scanFirst (splitLookAt s) (s.length + 1) i = some e := by
  cases hs : scanFirst (splitLookAt s) (s.length + 1) i with
  | some e => exact ⟨e, rfl⟩
  | none =>
    have hlook : splitLookAt s s.length = true := by
      unfold splitLookAt dollarAt
      simp
    have := scanFirst_eq_none hs s.length h (by omega)
    rw [hlook] at this
    exact absurd this (by simp)

theorem splitLookAt_le_length {s : List Char} {e : Nat}
    (h : splitLookAt s e = true) : e ≤ s.length := by
  unfold splitLookAt dollarAt at h
  simp only [Bool.or_eq_true, Bool.and_eq_true, beq_iff_eq] at h
  rcases h with h | h | h
  · have := occursAt_le_length cmdLit_ne_nil h
    omega
  · omega
  · omega

theorem splitLookEnd_le (s : List Char) (i : Nat) :
    splitLookEnd s i ≤ s.length := by
  unfold splitLookEnd
  cases hs : scanFirst (splitLookAt s) (s.length + 1) i with
  | none => simp
  | some e =>
    obtain ⟨_, h2, _⟩ := scanFirst_eq_some hs
    simpa using splitLookAt_le_length h2

theorem splitLookEnd_facts {s : List Char} {i : Nat} (h : i ≤ s.length) :
    i ≤ splitLookEnd s i ∧ splitLookAt s (splitLookEnd s i) = true ∧
      ∀ j, i ≤ j → j < splitLookEnd s i → splitLookAt s j = false := by
  obtain ⟨e, he⟩ := splitLook_scan_some h
  obtain ⟨h1, h2, h3⟩ := scanFirst_eq_some he
  unfold splitLookEnd
  rw [he]
  exact ⟨h1, h2, h3⟩

/-- Every span `(p, e)` produced by the sample-block scanner starts at an
occurrence of the delimiter literal and contains a `RAT\d+` token. -/
theorem scanSampleBlocks_mem {s : List Char} {fuel i p e : Nat}
    (h : (p, e) ∈ scanSampleBlocks s fuel i) :
    occursAt cmdLit s p = true ∧
      ∃ k, p + cmdLit.length ≤ k ∧ ratAt s k = true ∧ k + 4 ≤ e ∧
        e ≤ s.length := by
  induction fuel generalizing i with
  | zero => simp [scanSampleBlocks] at h
  | succ fuel ih =>
    rw [scanSampleBlocks] at h
    split at h
    · simp at h
    next p' hocc =>
      split at h
      · simp at h
      next k' hrat =>
        simp only [List.mem_cons] at h
        rcases h with h | h
        · obtain ⟨rfl, rfl⟩ := Prod.mk.injEq .. ▸ h
          obtain ⟨_, hop, _⟩ := scanFirst_eq_some hocc
          obtain ⟨hk1, hk2, _⟩ := scanFirst_eq_some hrat
          have hdig : isDigitAt s (k' + 3) = true := by
            unfold ratAt at hk2
            exact (Bool.and_eq_true ..).mp hk2 |>.2
          have hk3 : k' + 3 < s.length := isDigitAt_lt_length hdig
          have hd1 : k' + 3 ≤ digitsEnd s (k' + 3) := (digitsEnd_facts s _).1
          have hd2 : digitsEnd s (k' + 3) ≤ s.length := digitsEnd_le (by omega)
          have hd3 : isDigitAt s (digitsEnd s (k' + 3)) = false :=
            (digitsEnd_facts s _).2.1
          have hne : digitsEnd s (k' + 3) ≠ k' + 3 := by
            intro hEq
            rw [hEq, hdig] at hd3
            simp at hd3
          have hsl1 : digitsEnd s (k' + 3) ≤ splitLookEnd s (digitsEnd s (k' + 3)) :=
            (splitLookEnd_facts hd2).1
          have hsl2 : splitLookEnd s (digitsEnd s (k' + 3)) ≤ s.length :=
            splitLookEnd_le s _
          exact ⟨hop, k', hk1, hk2, by omega, hsl2⟩
        · exact ih h

theorem ratAt_slice {s : List Char} {p e k : Nat}
    (hr : ratAt s k = true) (h1 : p ≤ k) (h2 : k + 4 ≤ e) :
    ratAt (sliceOf s p e) (k - p) = true := by
  unfold ratAt at hr
  obtain ⟨hocc, hdig⟩ := (Bool.and_eq_true ..).mp hr
  unfold ratAt
  rw [Bool.and_eq_true]
  constructor
  · exact occursAt_slice hocc h1 (by simp [ratLit]; omega)
  · have hEq : k - p + 3 = (k + 3) - p := by omega
    rw [hEq, isDigitAt_slice (by omega) (by omega)]
    exact hdig

/-- Every sample block contains a `RAT\d+` token, so the sample-name search
inside a block succeeds. -/
theorem mem_sample_blocks_ratFound {s b : List Char}
    (h : b ∈ sample_blocks s) : (findRatTok b 0).isSome = true := by
  unfold sample_blocks at h
  obtain ⟨⟨p, e⟩, hmem, rfl⟩ := List.mem_map.mp h
  obtain ⟨hop, k, hk1, hk2, hk3, hk4⟩ := scanSampleBlocks_mem hmem
  have hcl : cmdLit.length = 24 := cmdLit_length
  have hlen : (sliceOf s p e).length = e - p := length_slice hk4
  have hrs : ratAt (sliceOf s p e) (k - p) = true :=
    ratAt_slice hk2 (by omega) hk3
  unfold findRatTok
  show (scanFirst (ratAt (sliceOf s p e)) ((sliceOf s p e).length + 1) 0).isSome = true
  exact scanFirst_isSome hrs (Nat.zero_le _) (by omega)

/-- Every sample block begins with the delimiter literal
`Command line parameters:`. -/
theorem mem_sample_blocks_startsWith {s b : List Char}
    (h : b ∈ sample_blocks s) : cmdLit.isPrefixOf b = true := by
  unfold sample_blocks at h
  obtain ⟨⟨p, e⟩, hmem, rfl⟩ := List.mem_map.mp h
  obtain ⟨hop, k, hk1, hk2, hk3, hk4⟩ := scanSampleBlocks_mem hmem
  have hcl : cmdLit.length = 24 := cmdLit_length
  have hos : occursAt cmdLit (sliceOf s p e) (p - p) = true :=
    occursAt_slice hop (Nat.le_refl _) (by omega)
  have hpp : p - p = 0 := by omega
  rw [hpp] at hos
  unfold occursAt at hos
  rw [List.drop_zero] at hos
  exact hos

theorem isPrefixOf_append_self {l x : List Char} :
    l.isPrefixOf (l ++ x) = true :=
  isPrefixOf_iff_ex.mpr ⟨x, rfl⟩

/-- Claim C1: a log with exactly one `RAT10` block holding a First-read
section (`Sequence: AAAA;`, `Trimmed: 100 times`) and a Second-read section
(same sequence, `Trimmed: 50 times`) parses to exactly the two rows
`(RAT10, AAAA, 100, 50, 150)` and `(RAT10, TOTAL, 100, 50, 150)`, in that
order. -/
theorem claim_c1_single_block_two_rows :
    parse_cutadapt_adapters c1log =
      [⟨"RAT10".data, "AAAA".data, 100, 50, 150⟩,
       ⟨"RAT10".data, "TOTAL".data, 100, 50, 150⟩] := by
  decide

/-- Claim C10: on a log whose adapter section has the literal sequence
`TOTAL`, the block's output has two rows whose `Adapter Sequence` is `TOTAL`
(the per-adapter row and the synthetic total row), identical here in every
column, so the synthetic row is not distinguishable by that field. -/
theorem claim_c10_total_collision :
    parse_cutadapt_adapters c10log =
      [⟨"RAT5".data, totalLit, 7, 0, 7⟩, ⟨"RAT5".data, totalLit, 7, 0, 7⟩] ∧
    (parse_cutadapt_adapters c10log).map Row.adapter = [totalLit, totalLit] := by
  constructor
  · decide
  · decide

/-- Claim C2, counterexample: in `c2log` no line both starts with
`Command line parameters:` and contains a `RAT<digits>` token, so under the
claim the segmentation would produce no block; the code produces one block
(the whole text), whose token sits on the second line. -/
theorem claim_c2_counterexample :
    ((splitLines c2log).all
        (fun ln => !(cmdLit.isPrefixOf ln && (findRatTok ln 0).isSome))) = true ∧
    sample_blocks c2log = [c2log] := by
  constructor
  · decide
  · decide

/-- Claim C2 as amended: segmentation matches need not start at a line start
and the `RAT<digits>` token need not sit on the header line; what holds is
that every produced block begins with the literal `Command line parameters:`
and contains a `RAT<digits>` token somewhere. -/
theorem claim_c2_amended {s b : List Char} (h : b ∈ sample_blocks s) :
    cmdLit.isPrefixOf b = true ∧ (findRatTok b 0).isSome = true :=
  ⟨mem_sample_blocks_startsWith h, mem_sample_blocks_ratFound h⟩

/-- Witness for the amended claim C2, at the concrete block of `c2log`. -/
theorem claim_c2_amended_witness :
    cmdLit.isPrefixOf c2log = true ∧ (findRatTok c2log 0).isSome = true :=
  claim_c2_amended (s := c2log) (by decide)

/-- Claim C3, counterexample: on the empty log the frame has no rows, hence
no columns, and the program prints only a blank line (plus the `print`
newline): the five-column header row is absent (the name `Sample Name` never
occurs in the output), although the exit status is still success. -/
theorem claim_c3_counterexample :
    parse_cutadapt_adapters [] = [] ∧
    programStdout [] = ['\n', '\n'] ∧
    findOcc "Sample Name".data (programStdout []) 0 = none ∧
    programExitCode [] = 0 := by
  refine ⟨by decide, by decide, by decide, rfl⟩

/-- Claim C3 as amended: with zero output rows the CSV printed to standard
output is just a blank line (no header), with success status; with at least
one row the output starts with the header line carrying the five column
names in order, again with success status. -/
theorem claim_c3_amended (log : List Char) :
    (parse_cutadapt_adapters log = [] →
      programStdout log = ['\n', '\n'] ∧ programExitCode log = 0) ∧
    (parse_cutadapt_adapters log ≠ [] →
      csvHeaderLine.isPrefixOf (programStdout log) = true ∧
        programExitCode log = 0) := by
  constructor
  · intro h
    unfold programStdout dfToCsv
    rw [h]
    exact ⟨rfl, rfl⟩
  · intro h
    refine ⟨?_, rfl⟩
    unfold programStdout dfToCsv
    cases hp : parse_cutadapt_adapters log with
    | nil => exact absurd hp h
    | cons r rs =>
      rw [List.append_assoc]
      exact isPrefixOf_append_self

/-- Witness for the amended claim C3: the empty log hits the blank-line
branch and the `c10log` scenario hits the header branch. -/
theorem claim_c3_amended_witness :
    (programStdout [] = ['\n', '\n'] ∧ programExitCode [] = 0) ∧
    (csvHeaderLine.isPrefixOf (programStdout c10log) = true ∧
      programExitCode c10log = 0) :=
  ⟨(claim_c3_amended []).1 (by decide), (claim_c3_amended c10log).2 (by decide)⟩

theorem findOcc_none_all {p s : List Char} {i : Nat} (hp : p ≠ [])
    (h : findOcc p s i = none) : ∀ j, i ≤ j → occursAt p s j = false := by
  intro j hj
  by_cases hjs : j < i + (s.length + 1)
  · exact scanFirst_eq_none h j hj hjs
  · exact occursAt_false_of_ge hp (by omega)

theorem seqPartAt_none_of_no_lit {s : List Char} {q0 : Nat}
    (h : occursAt seqLit s q0 = false) : seqPartAt s q0 = none := by
  unfold seqPartAt litEnd
  rw [h]
  simp

theorem adapterMatchAt_none_of_no_seq {s : List Char} {i : Nat}
    (h : ∀ j, seqPartAt s j = none) : adapterMatchAt s i = none := by
  unfold adapterMatchAt
  cases hh : headerMatchAt s i with
  | none => rfl
  | some wh =>
    have hscan : scanFirstOpt (seqPartAt s) (s.length + 2) wh.2 = none :=
      scanFirstOpt_none_intro (fun j _ => h j)
    simp [hscan]

theorem adapterScan_nil_of_none {s : List Char} {fuel i : Nat}
    (h : ∀ j, adapterMatchAt s j = none) : adapterScan s fuel i = [] := by
  induction fuel generalizing i with
  | zero => rfl
  | succ fuel ih =>
    rw [adapterScan]
    cases ho : findOcc eqMarker s i with
    | none => rfl
    | some hd =>
      show (match adapterMatchAt s hd with
            | some mt => mt.1 :: adapterScan s fuel mt.2
            | none => adapterScan s fuel (hd + 1)) = []
      rw [h hd]
      exact ih

/-- Claim C8: a sample block containing an adapter-section header and a
`Trimmed: <digits> times` line but no `Sequence:` field yields no
`AdapterMatch` at all and contributes no row (and the total function raises
nothing): the extraction pattern needs all three anchors together. -/
theorem claim_c8_missing_sequence {b : List Char}
    (_hh : hasHeaderB b = true) (_ht : hasTrimmedB b = true)
    (hs : findOcc seqLit b 0 = none) :
    adapter_matches b = [] ∧ blockRows b = [] := by
  have hnoseq : ∀ j, seqPartAt b j = none := fun j =>
    seqPartAt_none_of_no_lit (findOcc_none_all (by decide) hs j (Nat.zero_le _))
  have hnomatch : ∀ j, adapterMatchAt b j = none := fun j =>
    adapterMatchAt_none_of_no_seq hnoseq
  have hms : adapter_matches b = [] := adapterScan_nil_of_none hnomatch
  refine ⟨hms, ?_⟩
  unfold blockRows
  cases hn : sample_name b with
  | none => rfl
  | some name =>
    rw [hms]
    rfl

/-- Witness for claim C8, at a concrete header-and-Trimmed block with no
`Sequence:` line. -/
theorem claim_c8_witness :
    adapter_matches c8block = [] ∧ blockRows c8block = [] :=
  claim_c8_missing_sequence (by decide) (by decide) (by decide)

theorem emitLoop_eq (name : List Char) (d : List (List Char × Counts)) :
    ∀ (keys : List (List Char)) (rs : List Row) (t1 t2 : Nat),
    emitLoop name d keys (rs, t1, t2) =
      (rs ++ keys.map (mkAdapterRow name d),
       t1 + (keys.map (fun q => (dlookup d q).read1)).sum,
       t2 + (keys.map (fun q => (dlookup d q).read2)).sum) := by
  intro keys
  induction keys with
  | nil => intro rs t1 t2; simp [emitLoop]
  | cons seq rest ih =>
    intro rs t1 t2
    rw [emitLoop, ih]
    simp [mkAdapterRow, List.append_assoc, Nat.add_assoc]

theorem blockRows_shape (b : List Char) :
    blockRows b = perAdapterRows b ++ totalRows b := by
  unfold blockRows perAdapterRows totalRows block_keys block_data blockTotal1
    blockTotal2
  cases hn : sample_name b with
  | none => rfl
  | some name =>
    simp only [emitLoop_eq, List.nil_append, Nat.zero_add]
    cases hk : sortSeqs ((buildAdapterData (adapter_matches b)).map Prod.fst) with
    | nil => simp
    | cons k ks => simp [block_keys, block_data, hk]

theorem foldl_append_blockRows :
    ∀ (l : List (List Char)) (acc : List Row),
      l.foldl (fun a b => a ++ blockRows b) acc =
        acc ++ (l.map blockRows).flatten := by
  intro l
  induction l with
  | nil => intro acc; simp
  | cons b bs ih => intro acc; simp [List.foldl_cons, ih, List.append_assoc]

theorem parse_eq_flatten (s : List Char) :
    parse_cutadapt_adapters s = ((sample_blocks s).map blockRows).flatten := by
  unfold parse_cutadapt_adapters
  rw [foldl_append_blockRows]
  simp

theorem sample_name_some_of_mem {s b : List Char} (h : b ∈ sample_blocks s) :
    ∃ name, sample_name b = some name := by
  have hr := mem_sample_blocks_ratFound h
  unfold sample_name
  cases hk : findRatTok b 0 with
  | none => rw [hk] at hr; simp at hr
  | some k => exact ⟨_, rfl⟩

/-- Claim C9: segmentation guarantees a `RAT\d+` token inside every block, so
the sample-name search always succeeds and the block-discarding branch is
unreachable. -/
theorem claim_c9_rat_always_found {s b : List Char} (h : b ∈ sample_blocks s) :
    ∃ name, sample_name b = some name :=
  sample_name_some_of_mem h

/-- Witness for claim C9 at the concrete block of `c2log`. -/
theorem claim_c9_witness : ∃ name, sample_name c2log = some name :=
  claim_c9_rat_always_found (s := c2log) (by decide)

/-- Claim C4: for a log with a single sample block, with `N` distinct
recognised adapter sequences (`N = (block_keys b).length`): when `N = 0`
nothing is emitted; when `N ≥ 1` the output is exactly the `N` per-adapter
rows followed by one `TOTAL` row whose two counts are the sums of the
corresponding columns over those `N` rows. -/
theorem claim_c4_block_shape {s b : List Char} (h : sample_blocks s = [b]) :
    (block_keys b = [] → parse_cutadapt_adapters s = []) ∧
    (block_keys b ≠ [] →
      ∃ name, sample_name b = some name ∧
        parse_cutadapt_adapters s =
          (block_keys b).map (mkAdapterRow name (block_data b)) ++
            [⟨name, totalLit, blockTotal1 b, blockTotal2 b,
              blockTotal1 b + blockTotal2 b⟩] ∧
        ((block_keys b).map (mkAdapterRow name (block_data b))).length =
          (block_keys b).length ∧
        blockTotal1 b =
          (((block_keys b).map (mkAdapterRow name (block_data b))).map
            Row.read1).sum ∧
        blockTotal2 b =
          (((block_keys b).map (mkAdapterRow name (block_data b))).map
            Row.read2).sum) := by
  have hmem : b ∈ sample_blocks s := by rw [h]; exact List.mem_singleton.mpr rfl
  obtain ⟨name, hn⟩ := sample_name_some_of_mem hmem
  have hparse : parse_cutadapt_adapters s = blockRows b := by
    rw [parse_eq_flatten, h]
    simp
  constructor
  · intro hk
    rw [hparse, blockRows_shape]
    unfold perAdapterRows totalRows
    rw [hn, hk]
    simp
  · intro hk
    refine ⟨name, hn, ?_, by simp, ?_, ?_⟩
    · rw [hparse, blockRows_shape]
      unfold perAdapterRows totalRows
      rw [hn]
      cases hkk : block_keys b with
      | nil => exact absurd hkk hk
      | cons q qs => rfl
    · unfold blockTotal1
      rw [List.map_map]
      rfl
    · unfold blockTotal2
      rw [List.map_map]
      rfl

/-- Witness for claim C4, at the single-block log `c10log` (whose block is
the whole text, with one recognised sequence). -/
theorem claim_c4_witness :
    ∃ name, sample_name c10log = some name ∧
      parse_cutadapt_adapters c10log =
        (block_keys c10log).map (mkAdapterRow name (block_data c10log)) ++
          [⟨name, totalLit, blockTotal1 c10log, blockTotal2 c10log,
            blockTotal1 c10log + blockTotal2 c10log⟩] ∧
      ((block_keys c10log).map (mkAdapterRow name (block_data c10log))).length =
        (block_keys c10log).length ∧
      blockTotal1 c10log =
        (((block_keys c10log).map (mkAdapterRow name (block_data c10log))).map
          Row.read1).sum ∧
      blockTotal2 c10log =
        (((block_keys c10log).map (mkAdapterRow name (block_data c10log))).map
          Row.read2).sum :=
  (claim_c4_block_shape (by decide)).2 (by decide)

theorem row_total_eq {b : List Char} {r : Row} (h : r ∈ blockRows b) :
    r.total = r.read1 + r.read2 := by
  rw [blockRows_shape] at h
  rcases List.mem_append.mp h with h | h
  · unfold perAdapterRows at h
    cases hn : sample_name b with
    | none => rw [hn] at h; simp at h
    | some name =>
      rw [hn] at h
      replace h : r ∈ (block_keys b).map (mkAdapterRow name (block_data b)) := h
      obtain ⟨q, hq, rfl⟩ := List.mem_map.mp h
      rfl
  · unfold totalRows at h
    cases hn : sample_name b with
    | none => rw [hn] at h; simp at h
    | some name =>
      rw [hn] at h
      cases hk : block_keys b with
      | nil => rw [hk] at h; simp at h
      | cons q qs =>
        rw [hk] at h
        replace h : r ∈ [(⟨name, totalLit, blockTotal1 b, blockTotal2 b,
          blockTotal1 b + blockTotal2 b⟩ : Row)] := h
        simp only [List.mem_singleton] at h
        subst h
        rfl

/-- Claim C7: every emitted row, per-adapter and `TOTAL` alike, satisfies
`Total Trimmed = Trimmed (Read 1) + Trimmed (Read 2)`. -/
theorem claim_c7_total_invariant {s : List Char} {r : Row}
    (h : r ∈ parse_cutadapt_adapters s) : r.total = r.read1 + r.read2 := by
  rw [parse_eq_flatten] at h
  obtain ⟨l, hl, hr⟩ := List.mem_flatten.mp h
  obtain ⟨b, hb, rfl⟩ := List.mem_map.mp hl
  exact row_total_eq hr

/-- Witness for claim C7, at the `TOTAL` row of `c10log`. -/
theorem claim_c7_witness :
    (Row.mk "RAT5".data totalLit 7 0 7).total =
      (Row.mk "RAT5".data totalLit 7 0 7).read1 +
        (Row.mk "RAT5".data totalLit 7 0 7).read2 :=
  claim_c7_total_invariant (s := c10log) (by decide)

theorem lexLe_total (a b : List Char) : lexLe a b = true ∨ lexLe b a = true := by
  induction a generalizing b with
  | nil => left; rfl
  | cons x xs ih =>
    cases b with
    | nil => right; rfl
    | cons y ys =>
      rcases lt_trichotomy x y with h | h | h
      · left; simp [lexLe, h]
      · subst h
        rcases ih ys with h2 | h2
        · left; simp [lexLe, lt_irrefl, h2]
        · right; simp [lexLe, lt_irrefl, h2]
      · right; simp [lexLe, h]

theorem lexLe_trans :
    ∀ {a b c : List Char}, lexLe a b = true → lexLe b c = true →
      lexLe a c = true := by
  intro a
  induction a with
  | nil => intro b c _ _; rfl
  | cons x xs ih =>
    intro b c h1 h2
    cases b with
    | nil => simp [lexLe] at h1
    | cons y ys =>
      cases c with
      | nil => simp [lexLe] at h2
      | cons z zs =>
        rcases lt_trichotomy x y with hxy | hxy | hxy
        · rcases lt_trichotomy y z with hyz | hyz | hyz
          · simp [lexLe, lt_trans hxy hyz]
          · subst hyz; simp [lexLe, hxy]
          · simp [lexLe, lt_asymm hyz, hyz] at h2
        · subst hxy
          have h1t : lexLe xs ys = true := by
            simpa [lexLe, lt_irrefl] using h1
          rcases lt_trichotomy x z with hxz | hxz | hxz
          · simp [lexLe, hxz]
          · subst hxz
            have h2t : lexLe ys zs = true := by
              simpa [lexLe, lt_irrefl] using h2
            simp [lexLe, lt_irrefl]
            exact ih h1t h2t
          · simp [lexLe, lt_asymm hxz, hxz] at h2
        · simp [lexLe, lt_asymm hxy, hxy] at h1

theorem lexLt_of_le_ne :
    ∀ {a b : List Char}, lexLe a b = true → a ≠ b → lexLt a b = true := by
  intro a
  induction a with
  | nil =>
    intro b h hne
    cases b with
    | nil => exact absurd rfl hne
    | cons y ys => rfl
  | cons x xs ih =>
    intro b h hne
    cases b with
    | nil => simp [lexLe] at h
    | cons y ys =>
      rcases lt_trichotomy x y with hxy | hxy | hxy
      · simp [lexLt, hxy]
      · subst hxy
        have ht : lexLe xs ys = true := by simpa [lexLe, lt_irrefl] using h
        have hts : xs ≠ ys := fun hEq => hne (by rw [hEq])
        simp [lexLt, lt_irrefl]
        exact ih ht hts
      · simp [lexLe, lt_asymm hxy, hxy] at h

theorem mem_insortSeq {z x : List Char} :
    ∀ {l : List (List Char)}, z ∈ insortSeq x l ↔ z = x ∨ z ∈ l := by
  intro l
  induction l with
  | nil => simp [insortSeq]
  | cons y ys ih =>
    cases hle : lexLe x y with
    | true => simp [insortSeq, hle, List.mem_cons]
    | false =>
      simp only [insortSeq, hle, Bool.false_eq_true, if_false, List.mem_cons,
        ih]
      tauto

theorem pairwise_insortSeq {x : List Char} :
    ∀ {l : List (List Char)}, List.Pairwise seqLeRel l →
      List.Pairwise seqLeRel (insortSeq x l) := by
  intro l
  induction l with
  | nil => intro _; simp [insortSeq, seqLeRel]
  | cons y ys ih =>
    intro hl
    obtain ⟨hy, hys⟩ := List.pairwise_cons.mp hl
    by_cases hle : lexLe x y = true
    · rw [insortSeq, if_pos hle]
      refine List.pairwise_cons.mpr ⟨?_, hl⟩
      intro u hu
      rcases List.mem_cons.mp hu with rfl | hu
      · exact hle
      · exact lexLe_trans hle (hy u hu)
    · rw [insortSeq, if_neg hle]
      refine List.pairwise_cons.mpr ⟨?_, ih hys⟩
      intro u hu
      rcases mem_insortSeq.mp hu with rfl | hu
      · rcases lexLe_total u y with h | h
        · exact absurd h hle
        · exact h
      · exact hy u hu

theorem pairwise_sortSeqs (l : List (List Char)) :
    List.Pairwise seqLeRel (sortSeqs l) := by
  induction l with
  | nil => simp [sortSeqs]
  | cons x xs ih => exact pairwise_insortSeq ih

theorem insortSeq_perm (x : List Char) :
    ∀ (l : List (List Char)), List.Perm (insortSeq x l) (x :: l) := by
  intro l
  induction l with
  | nil => exact List.Perm.refl _
  | cons y ys ih =>
    by_cases hle : lexLe x y = true
    · rw [insortSeq, if_pos hle]
    · rw [insortSeq, if_neg hle]
      exact (ih.cons y).trans (List.Perm.swap x y ys)

theorem sortSeqs_perm : ∀ (l : List (List Char)), List.Perm (sortSeqs l) l := by
  intro l
  induction l with
  | nil => exact List.Perm.refl _
  | cons x xs ih => exact (insortSeq_perm x (sortSeqs xs)).trans (ih.cons x)

theorem updData_fst (d : List (List Char × Counts)) (seq : List Char)
    (isF : Bool) (n : Nat) :
    (updData d seq isF n).map Prod.fst =
      if seq ∈ d.map Prod.fst then d.map Prod.fst
      else d.map Prod.fst ++ [seq] := by
  induction d with
  | nil => simp [updData]
  | cons kv rest ih =>
    obtain ⟨k, v⟩ := kv
    by_cases hk : k = seq
    · subst hk
      rw [updData, if_pos rfl]
      have hmem : k ∈ ((k, v) :: rest).map Prod.fst := List.mem_cons_self _ _
      rw [if_pos hmem]
      rfl
    · rw [updData]
      rw [if_neg hk]
      simp only [List.map_cons, List.mem_cons]
      have hne : ¬ seq = k := fun hEq => hk hEq.symm
      by_cases hmem : seq ∈ rest.map Prod.fst
      · simp [hne, hmem, ih]
      · simp [hne, hmem, ih]

theorem nodup_updData_fst {d : List (List Char × Counts)} {seq : List Char}
    {isF : Bool} {n : Nat} (h : (d.map Prod.fst).Nodup) :
    ((updData d seq isF n).map Prod.fst).Nodup := by
  rw [updData_fst]
  by_cases hmem : seq ∈ d.map Prod.fst
  · rw [if_pos hmem]; exact h
  · rw [if_neg hmem]
    refine List.Nodup.append h (List.nodup_singleton _) ?_
    intro a ha hb
    rw [List.mem_singleton] at hb
    subst hb
    exact hmem ha

theorem nodup_buildAdapterData_fst (ms : List AdapterMatch) :
    ((buildAdapterData ms).map Prod.fst).Nodup := by
  unfold buildAdapterData
  have hgen :
      ∀ (ms : List AdapterMatch) (d : List (List Char × Counts)),
        (d.map Prod.fst).Nodup →
        ((ms.foldl
            (fun d m =>
              updData d (stripChars m.adapter_sequence_raw)
                (lowerEqFirst m.which_read) m.trimmed_count)
            d).map Prod.fst).Nodup := by
    intro ms
    induction ms with
    | nil => intro d h; simpa using h
    | cons m rest ih =>
      intro d h
      exact ih _ (nodup_updData_fst h)
  exact hgen ms [] (by simp)

theorem nodup_block_keys (b : List Char) : (block_keys b).Nodup := by
  unfold block_keys
  exact (sortSeqs_perm _).nodup_iff.mpr (nodup_buildAdapterData_fst _)

theorem chain'_block_keys (b : List Char) :
    List.Chain' seqLtRel (block_keys b) := by
  have h1 : List.Pairwise seqLeRel (block_keys b) := pairwise_sortSeqs _
  have h2 : List.Pairwise (fun a b : List Char => a ≠ b) (block_keys b) :=
    nodup_block_keys b
  have h3 : List.Pairwise seqLtRel (block_keys b) :=
    (h1.and h2).imp (fun hab => lexLt_of_le_ne hab.1 hab.2)
  exact h3.chain'

theorem chain'_perAdapterRows (b : List Char) :
    List.Chain' rowLtRel (perAdapterRows b) := by
  unfold perAdapterRows
  cases hn : sample_name b with
  | none => simp
  | some name =>
    show List.Chain' rowLtRel
      ((block_keys b).map (mkAdapterRow name (block_data b)))
    rw [List.chain'_map]
    exact List.Chain'.imp (fun a b h => h) (chain'_block_keys b)

/-- Claim C6: rows appear block by block in input order (the output is the
concatenation of the per-block row lists, never interleaved); within a block
the per-adapter rows are in strictly increasing lexicographic order of
`Adapter Sequence`, and the `TOTAL` row, when present, comes last. -/
theorem claim_c6_order (s : List Char) :
    parse_cutadapt_adapters s = ((sample_blocks s).map blockRows).flatten ∧
    ∀ b, b ∈ sample_blocks s →
      List.Chain' rowLtRel (perAdapterRows b) ∧
      blockRows b = perAdapterRows b ++ totalRows b ∧
      (totalRows b).all (fun r => r.adapter == totalLit) = true := by
  refine ⟨parse_eq_flatten s, fun b _ => ⟨chain'_perAdapterRows b, blockRows_shape b, ?_⟩⟩
  unfold totalRows
  cases hn : sample_name b with
  | none => rfl
  | some name =>
    cases hk : block_keys b with
    | nil => rfl
    | cons q qs => simp

/-- Witness for claim C6 at `c1log`, whose single block is `c1block`. -/
theorem claim_c6_witness :
    parse_cutadapt_adapters c1log =
      ((sample_blocks c1log).map blockRows).flatten ∧
    (List.Chain' rowLtRel (perAdapterRows c1block) ∧
      blockRows c1block = perAdapterRows c1block ++ totalRows c1block ∧
      (totalRows c1block).all (fun r => r.adapter == totalLit) = true) :=
  ⟨(claim_c6_order c1log).1, (claim_c6_order c1log).2 c1block (by decide)⟩

theorem ratAt_append_left {A B : List Char} {i : Nat} (h : i + 4 ≤ A.length) :
    ratAt (A ++ B) i = ratAt A i := by
  unfold ratAt
  rw [occursAt_append_left (by simp [ratLit]; omega), isDigitAt_append_left (by omega)]

theorem ratAt_append_add {A B : List Char} {j : Nat} :
    ratAt (A ++ B) (A.length + j) = ratAt B j := by
  unfold ratAt
  rw [occursAt_append_add]
  have h : A.length + j + 3 = A.length + (j + 3) := by omega
  rw [h, isDigitAt_append_add]

theorem dollarAt_append_add {A B : List Char} {j : Nat} :
    dollarAt (A ++ B) (A.length + j) = dollarAt B j := by
  unfold dollarAt
  rw [List.length_append, charAt?_append_add]
  have h1 : (A.length + j == A.length + B.length) = (j == B.length) := by
    rw [Bool.eq_iff_iff]
    simp
  have h2 : (A.length + j + 1 == A.length + B.length) = (j + 1 == B.length) := by
    rw [Bool.eq_iff_iff]
    simp
    omega
  rw [h1, h2]

theorem splitLookAt_append_add {A B : List Char} {j : Nat} :
    splitLookAt (A ++ B) (A.length + j) = splitLookAt B j := by
  unfold splitLookAt
  rw [occursAt_append_add, dollarAt_append_add]

theorem charAt?_of_occursAt {p s : List Char} {j d : Nat}
    (h : occursAt p s j = true) (hd : d < p.length) :
    charAt? s (j + d) = charAt? p d := by
  obtain ⟨t, ht⟩ := isPrefixOf_iff_ex.mp h
  rw [← charAt?_drop, ← ht, charAt?_append_left hd]

theorem cmdLit_no_straddle {A B : List Char} {j : Nat}
    (hB0 : charAt? B 0 = some 'C') (hj1 : j < A.length)
    (hj2 : A.length < j + cmdLit.length)
    (h : occursAt cmdLit (A ++ B) j = true) : False := by
  have hd : ∀ d, d < 24 → 1 ≤ d → charAt? cmdLit d ≠ some 'C' := by decide
  have hchar := charAt?_of_occursAt h (d := A.length - j) (by rw [cmdLit_length] at hj2 ⊢; omega)
  have hjd : j + (A.length - j) = A.length + 0 := by omega
  rw [hjd, charAt?_append_add, hB0] at hchar
  exact hd (A.length - j) (by rw [cmdLit_length] at hj2; omega) (by omega) hchar.symm

theorem map_slice_eq_singleton {s : List Char} {l : List (Nat × Nat)}
    {b : List Char}
    (h : l.map (fun pe => sliceOf s pe.1 pe.2) = [b]) :
    ∃ pe, l = [pe] ∧ sliceOf s pe.1 pe.2 = b := by
  cases l with
  | nil => simp at h
  | cons pe rest =>
    simp only [List.map_cons, List.cons.injEq] at h
    obtain ⟨h1, h2⟩ := h
    have hrest : rest = [] := by
      cases rest with
      | nil => rfl
      | cons x xs => simp at h2
    exact ⟨pe, by rw [hrest], h1⟩

/-- Inversion of `sample_blocks A = [A]`: the whole text is one match, so the
delimiter literal sits at index 0, the first `RAT\d+` token is at some `k`
past the literal, and the trailing lazy part runs to the very end of the
text. -/
theorem selfContained_inv {A : List Char} (hA : sample_blocks A = [A]) :
    occursAt cmdLit A 0 = true ∧
    ∃ k, cmdLit.length ≤ k ∧ ratAt A k = true ∧
      (∀ j, cmdLit.length ≤ j → j < k → ratAt A j = false) ∧
      splitLookEnd A (digitsEnd A (k + 3)) = A.length := by
  unfold sample_blocks at hA
  obtain ⟨⟨p, e⟩, hscan, hslice⟩ := map_slice_eq_singleton hA
  have hmem : ((p, e) : Nat × Nat) ∈ scanSampleBlocks A (A.length + 1) 0 := by
    rw [hscan]; exact List.mem_singleton.mpr rfl
  obtain ⟨hop, k0, hk01, hk02, hk03, hk04⟩ := scanSampleBlocks_mem hmem
  have hlen : (sliceOf A p e).length = e - p := length_slice hk04
  have hlenA := congrArg List.length hslice
  rw [hlen] at hlenA
  have hp0 : p = 0 := by omega
  subst hp0
  have he : e = A.length := by omega
  subst he
  rw [scanSampleBlocks] at hscan
  split at hscan
  · simp at hscan
  next p' hocc =>
    split at hscan
    · simp at hscan
    next k hrat =>
      simp only [List.cons.injEq, Prod.mk.injEq] at hscan
      obtain ⟨⟨hpp, hee⟩, _⟩ := hscan
      subst hpp
      obtain ⟨hr1, hr2, hr3⟩ := scanFirst_eq_some hrat
      refine ⟨hop, k, by omega, hr2, ?_, hee⟩
      intro j hj1 hj2
      exact hr3 j (by omega) hj2

/-- Concatenating two self-contained one-block logs segments into exactly the
two blocks, in order. -/
theorem sample_blocks_append {A B : List Char}
    (hA : sample_blocks A = [A]) (hB : sample_blocks B = [B]) :
    sample_blocks (A ++ B) = [A, B] := by
  obtain ⟨hA0, kA, hkA1, hkA2, hkA3, hkA4⟩ := selfContained_inv hA
  obtain ⟨hB0, kB, hkB1, hkB2, hkB3, hkB4⟩ := selfContained_inv hB
  have hNAB : (A ++ B).length = A.length + B.length := by simp
  have hcl : cmdLit.length = 24 := cmdLit_length
  have hdigA : isDigitAt A (kA + 3) = true := ((Bool.and_eq_true ..).mp hkA2).2
  have hkA3lt : kA + 3 < A.length := isDigitAt_lt_length hdigA
  have hdigB : isDigitAt B (kB + 3) = true := ((Bool.and_eq_true ..).mp hkB2).2
  have hkB3lt : kB + 3 < B.length := isDigitAt_lt_length hdigB
  obtain ⟨hmA1, hmA2, hmA3⟩ := digitsEnd_facts A (kA + 3)
  set mA := digitsEnd A (kA + 3) with hmAdef
  have hmAle : mA ≤ A.length := digitsEnd_le (by omega)
  obtain ⟨hsl1, hsl2, hsl3⟩ := splitLookEnd_facts (s := A) (i := mA) hmAle
  rw [hkA4] at hsl3
  obtain ⟨hmB1, hmB2, hmB3⟩ := digitsEnd_facts B (kB + 3)
  set mB := digitsEnd B (kB + 3) with hmBdef
  have hmBle : mB ≤ B.length := digitsEnd_le (by omega)
  obtain ⟨htl1, htl2, htl3⟩ := splitLookEnd_facts (s := B) (i := mB) hmBle
  rw [hkB4] at htl3
  have hBC : charAt? B 0 = some 'C' := by
    have h := charAt?_of_occursAt hB0 (d := 0) (by rw [hcl]; omega)
    rw [h]
    rfl
  have hdigB0 : isDigitAt B 0 = false := by
    unfold isDigitAt
    rw [hBC]
    decide
  have hstep1 : findOcc cmdLit (A ++ B) 0 = some 0 := by
    unfold findOcc
    refine scanFirst_intro ?_ (Nat.le_refl _) (by omega)
      (fun j hj1 hj2 => absurd hj2 (by omega))
    rw [occursAt_append_left (by omega)]
    exact hA0
  have hstep2 : findRatTok (A ++ B) (0 + cmdLit.length) = some kA := by
    unfold findRatTok
    refine scanFirst_intro ?_ (by omega) (by omega) ?_
    · rw [ratAt_append_left (by omega)]
      exact hkA2
    · intro j hj1 hj2
      rw [ratAt_append_left (by omega)]
      exact hkA3 j (by omega) hj2
  have hstep3 : digitsEnd (A ++ B) (kA + 3) = mA := by
    unfold digitsEnd
    have hsome : scanFirst (fun j => !(isDigitAt (A ++ B) j))
        ((A ++ B).length + 1) (kA + 3) = some mA := by
      refine scanFirst_intro ?_ (by omega) (by omega) ?_
      · rcases Nat.lt_or_ge mA A.length with hlt | hge
        · rw [isDigitAt_append_left hlt, hmA2]
          rfl
        · have hEq : mA = A.length := by omega
          have h0 : isDigitAt (A ++ B) (A.length + 0) = isDigitAt B 0 :=
            isDigitAt_append_add
          rw [Nat.add_zero] at h0
          rw [hEq, h0, hdigB0]
          rfl
      · intro j hj1 hj2
        rw [isDigitAt_append_left (by omega), hmA3 j hj1 hj2]
        rfl
    rw [hsome]
    rfl
  have hstep4 : splitLookEnd (A ++ B) mA = A.length := by
    unfold splitLookEnd
    have hsome : scanFirst (splitLookAt (A ++ B)) ((A ++ B).length + 1) mA =
        some A.length := by
      refine scanFirst_intro ?_ hmAle (by omega) ?_
      · unfold splitLookAt
        have h0 : occursAt cmdLit (A ++ B) (A.length + 0) = occursAt cmdLit B 0 :=
          occursAt_append_add
        rw [Nat.add_zero] at h0
        rw [h0, hB0]
        rfl
      · intro j hj1 hj2
        have hsA : splitLookAt A j = false := hsl3 j hj1 hj2
        have hparts := Bool.or_eq_false_iff.mp hsA
        unfold splitLookAt
        rw [Bool.or_eq_false_iff]
        constructor
        · by_cases hj24 : j + cmdLit.length ≤ A.length
          · rw [occursAt_append_left hj24]
            exact hparts.1
          · cases hc : occursAt cmdLit (A ++ B) j with
            | false => rfl
            | true => exact (cmdLit_no_straddle hBC hj2 (by omega) hc).elim
        · unfold dollarAt
          rw [hNAB]
          have h1 : (j == A.length + B.length) = false := by
            simp only [beq_eq_false_iff_ne]
            omega
          have h2 : (j + 1 == A.length + B.length) = false := by
            simp only [beq_eq_false_iff_ne]
            omega
          rw [h1, h2]
          rfl
    rw [hsome]
    rfl
  have hstep5 : findOcc cmdLit (A ++ B) A.length = some A.length := by
    unfold findOcc
    refine scanFirst_intro ?_ (Nat.le_refl _) (by omega)
      (fun j hj1 hj2 => absurd hj1 (by omega))
    have h0 : occursAt cmdLit (A ++ B) (A.length + 0) = occursAt cmdLit B 0 :=
      occursAt_append_add
    rw [Nat.add_zero] at h0
    rw [h0]
    exact hB0
  have hstep6 : findRatTok (A ++ B) (A.length + cmdLit.length) =
      some (A.length + kB) := by
    unfold findRatTok
    refine scanFirst_intro ?_ (by omega) (by omega) ?_
    · rw [ratAt_append_add]
      exact hkB2
    · intro j hj1 hj2
      have hj : j = A.length + (j - A.length) := by omega
      rw [hj, ratAt_append_add]
      exact hkB3 (j - A.length) (by omega) (by omega)
  have hstep7 : digitsEnd (A ++ B) (A.length + kB + 3) = A.length + mB := by
    unfold digitsEnd
    have hadd : A.length + kB + 3 = A.length + (kB + 3) := by omega
    have hsome : scanFirst (fun j => !(isDigitAt (A ++ B) j))
        ((A ++ B).length + 1) (A.length + kB + 3) = some (A.length + mB) := by
      refine scanFirst_intro ?_ (by omega) (by omega) ?_
      · rw [isDigitAt_append_add, hmB2]
        rfl
      · intro j hj1 hj2
        have hj : j = A.length + (j - A.length) := by omega
        rw [hj, isDigitAt_append_add,
          hmB3 (j - A.length) (by omega) (by omega)]
        rfl
    rw [hsome]
    rfl
  have hstep8 : splitLookEnd (A ++ B) (A.length + mB) = (A ++ B).length := by
    unfold splitLookEnd
    have hsome : scanFirst (splitLookAt (A ++ B)) ((A ++ B).length + 1)
        (A.length + mB) = some ((A ++ B).length) := by
      refine scanFirst_intro ?_ (by omega) (by omega) ?_
      · unfold splitLookAt dollarAt
        simp
      · intro j hj1 hj2
        have hj : j = A.length + (j - A.length) := by omega
        rw [hj, splitLookAt_append_add]
        exact htl3 (j - A.length) (by omega) (by omega)
    rw [hsome]
    rfl
  have htail : ∀ fuel, scanSampleBlocks (A ++ B) fuel ((A ++ B).length) = [] := by
    intro fuel
    cases fuel with
    | zero => rfl
    | succ fuel =>
      rw [scanSampleBlocks]
      have hnone : findOcc cmdLit (A ++ B) ((A ++ B).length) = none := by
        unfold findOcc
        exact scanFirst_none_intro
          (fun j hj => occursAt_false_of_ge cmdLit_ne_nil (by omega))
      rw [hnone]
  have hsecond : ∀ fuel, scanSampleBlocks (A ++ B) (fuel + 1) A.length =
      [(A.length, (A ++ B).length)] := by
    intro fuel
    rw [scanSampleBlocks, hstep5]
    simp only [hstep6, hstep7, hstep8, htail]
  have hfirst : scanSampleBlocks (A ++ B) ((A ++ B).length + 1) 0 =
      [(0, A.length), (A.length, (A ++ B).length)] := by
    rw [scanSampleBlocks, hstep1]
    simp only [hstep2, hstep3, hstep4]
    have hge1 : 1 ≤ (A ++ B).length := by omega
    have hf : (A ++ B).length = ((A ++ B).length - 1) + 1 := by omega
    nth_rewrite 1 [hf]
    rw [hsecond]
  unfold sample_blocks
  rw [hfirst]
  simp only [List.map_cons, List.map_nil]
  have hsliceA : sliceOf (A ++ B) 0 A.length = A := by
    unfold sliceOf
    rw [List.drop_zero, Nat.sub_zero, take_append_le (Nat.le_refl _),
      List.take_length]
  have hsliceB : sliceOf (A ++ B) A.length ((A ++ B).length) = B := by
    unfold sliceOf
    rw [drop_append_le (Nat.le_refl _), List.drop_length, List.nil_append,
      hNAB]
    have h : A.length + B.length - A.length = B.length := by omega
    rw [h, List.take_length]
  rw [hsliceA, hsliceB]

/-- Claim C5: for two self-contained one-block logs (each parses to exactly
itself as its single sample block), parsing the concatenation yields the two
blocks in order and the parse of the concatenation is the concatenation of
the parses: block order preserved, no cross-block merging. -/
theorem claim_c5_concat {A B : List Char}
    (hA : sample_blocks A = [A]) (hB : sample_blocks B = [B]) :
    sample_blocks (A ++ B) = [A, B] ∧
    parse_cutadapt_adapters (A ++ B) =
      parse_cutadapt_adapters A ++ parse_cutadapt_adapters B := by
  refine ⟨sample_blocks_append hA hB, ?_⟩
  rw [parse_eq_flatten, parse_eq_flatten, parse_eq_flatten,
    sample_blocks_append hA hB, hA, hB]
  simp

/-- Witness for claim C5 at two concrete self-contained blocks. -/
theorem claim_c5_witness :
    sample_blocks c5A = [c5A] ∧ sample_blocks c5B = [c5B] ∧
    sample_blocks (c5A ++ c5B) = [c5A, c5B] ∧
    parse_cutadapt_adapters (c5A ++ c5B) =
      parse_cutadapt_adapters c5A ++ parse_cutadapt_adapters c5B := by
  have h := claim_c5_concat (A := c5A) (B := c5B) (by decide) (by decide)
  exact ⟨by decide, by decide, h.1, h.2⟩
